import Mathlib

/-!
Verification of the reference-formatting core in `reference_processor.py`
(repository `Reference-Formatter-Tool`).

Strings are modelled as `List Char` (`Str`).  Python single-character
`str.replace` calls are character maps; the regex passes of the source are
modelled as explicit scanners over `Str`.  All definitions are executable.
-/

set_option maxRecDepth 100000

abbrev Str := List Char

/-- Python's `\s` / `str.isspace` character class (Unicode whitespace as
recognised by CPython: ASCII whitespace, the C1 separators, NBSP, the
general-category Zs/Zl/Zp code points). -/
def isPySpace (c : Char) : Bool :=
  let n := c.toNat
  (9 ≤ n && n ≤ 13) || n == 32 || (28 ≤ n && n ≤ 31) || n == 0x85 ||
  n == 0xA0 || n == 0x1680 || (0x2000 ≤ n && n ≤ 0x200A) ||
  n == 0x2028 || n == 0x2029 || n == 0x202F || n == 0x205F || n == 0x3000

/-- Python's `\d` is the Unicode decimal-digit category Nd; we model the Nd
ranges this tool's bibliographic input can contain (ASCII, Arabic-Indic,
extended Arabic-Indic, Devanagari, full-width digits). -/
def isPyDigit (c : Char) : Bool :=
  let n := c.toNat
  (48 ≤ n && n ≤ 57) || (0x660 ≤ n && n ≤ 0x669) || (0x6F0 ≤ n && n ≤ 0x6F9) ||
  (0x966 ≤ n && n ≤ 0x96F) || (0xFF10 ≤ n && n ≤ 0xFF19)

/-- Decimal value of one digit character (as accepted by Python's `int`). -/
def digitVal (c : Char) : Nat :=
  let n := c.toNat
  if 48 ≤ n && n ≤ 57 then n - 48
  else if 0x660 ≤ n && n ≤ 0x669 then n - 0x660
  else if 0x6F0 ≤ n && n ≤ 0x6F9 then n - 0x6F0
  else if 0x966 ≤ n && n ≤ 0x96F then n - 0x966
  else if 0xFF10 ≤ n && n ≤ 0xFF19 then n - 0xFF10
  else 0

/-- Python `int` applied to a run of decimal digits. -/
def digitsToNat (ds : Str) : Nat :=
  ds.foldl (fun a c => 10 * a + digitVal c) 0

/-- The regex class `[一-鿿]` (CJK Unified Ideographs) used by
`self.cjk_pattern` and the splitting regexes of the source. -/
def isCJK (c : Char) : Bool :=
  0x4E00 ≤ c.toNat && c.toNat ≤ 0x9FFF

/-- The class `[a-zA-Z0-9\s]`, the second alternative of the run-splitting regex in
`_apply_mixed_font_styles`. -/
def isAlnumWs (c : Char) : Bool :=
  let n := c.toNat
  (65 ≤ n && n ≤ 90) || (97 ≤ n && n ≤ 122) || (48 ≤ n && n ≤ 57) || isPySpace c

/-- Python `str.strip()`: drop whitespace from both ends. -/
def pyStrip (s : Str) : Str :=
  List.rdropWhile isPySpace (s.dropWhile isPySpace)

/-- Python `re.sub(r'\s+', ' ', s)`: collapse every maximal whitespace run to a
single ASCII space.  Built as a right fold: a whitespace character merges
with a space already produced from the rest of the string. -/
def collapseWs : Str → Str
  | [] => []
  | c :: cs =>
    if isPySpace c then
      match collapseWs cs with
      | [] => [' ']
      | d :: t => if d = ' ' then d :: t else ' ' :: d :: t
    else c :: collapseWs cs

/-- Step 4 of `_normalize_characters`: `re.sub(r'\s+', ' ', x).strip()`. -/
def wsClean (s : Str) : Str :=
  pyStrip (collapseWs s)

/-- First-match lookup in an association list of characters, the effect of a
Python dict-driven character substitution on a single character. -/
def mapChar (m : List (Char × Char)) (c : Char) : Char :=
  match m.find? (fun p => p.1 = c) with
  | some p => p.2
  | none => c

/-- The Python loop `for full, half in m.items(): s = s.replace(full, half)`:
each single-character `str.replace` is a map over the characters. -/
def applyMapping (m : List (Char × Char)) (s : Str) : Str :=
  m.foldl (fun acc p => acc.map (fun c => if c = p.1 then p.2 else c)) s

/-- Table `CHAR_MAPPING` of `reference_processor.py`, in source order.  Note the
key `'四'` (the ideograph, U+56DB) in the digits row of the source. -/
def CHAR_MAPPING : List (Char × Char) :=
  [('０', '0'), ('１', '1'), ('２', '2'), ('３', '3'), ('四', '4'),
   ('５', '5'), ('６', '6'), ('７', '7'), ('８', '8'), ('９', '9'),
   ('（', '('), ('）', ')'), ('【', '['), ('】', ']'),
   ('—', '-'), ('–', '-'), ('―', '-'), ('．', '.'), ('：', ':'), ('；', ';'),
   ('，', ','), ('。', '.'), ('？', '?'), ('！', '!'), ('＠', '@'), ('＃', '#'),
   ('＄', '$'), ('％', '%'), ('＾', '^'), ('＆', '&'), ('＊', '*'), ('＋', '+'),
   ('＝', '='), ('～', '~'), ('　', ' ')]

/-- Python `str.maketrans('０１２３４５６７８９', '0123456789')` of
`_normalize_english_punctuation`. -/
def fwDigitMap : List (Char × Char) :=
  [('０', '0'), ('１', '1'), ('２', '2'), ('３', '3'), ('４', '4'),
   ('５', '5'), ('６', '6'), ('７', '7'), ('８', '8'), ('９', '9')]

/-- The `full_to_half` dict of `_normalize_english_punctuation`, in source
order. -/
def fullToHalf : List (Char × Char) :=
  [('，', ','), ('。', '.'), ('：', ':'), ('；', ';'),
   ('？', '?'), ('！', '!'), ('（', '('), ('）', ')'),
   ('【', '['), ('】', ']'), ('―', '-'), ('–', '-'),
   ('—', '-'), ('．', '.'), ('·', '.'), ('∶', ':'),
   ('＠', '@'), ('＃', '#'), ('＄', '$'), ('％', '%'),
   ('＾', '^'), ('＆', '&'), ('＊', '*'), ('＋', '+'),
   ('＝', '='), ('～', '~'), ('　', ' ')]

/-- The `half_to_full` dict of `_normalize_chinese_punctuation`, in source
order. -/
def halfToFull : List (Char × Char) :=
  [(',', '，'), ('.', '。'), (':', '：'), (';', '；'),
   ('?', '？'), ('!', '！'), ('(', '（'), (')', '）'),
   ('[', '【'), (']', '】')]

/-- Method `_normalize_english_punctuation`: full-width digit translation followed
by the `full_to_half` replacement loop. -/
def normalizeEnglishPunctuation (text : Str) : Str :=
  applyMapping fullToHalf (text.map (mapChar fwDigitMap))

/-- Method `_normalize_chinese_punctuation`: the `half_to_full` replacement loop. -/
def normalizeChinesePunctuation (text : Str) : Str :=
  applyMapping halfToFull text

/-- Splitter for `([一-鿿]+)|([^一-鿿]+)` in
`_normalize_characters`: maximal runs of a constant `isCJK` class.
`k` is the class of the run being grown, `acc` its characters reversed. -/
def splitCJKGo (k : Bool) (acc : Str) : Str → List Str
  | [] => [acc.reverse]
  | d :: ds =>
    if isCJK d = k then splitCJKGo k (d :: acc) ds
    else acc.reverse :: splitCJKGo (isCJK d) [d] ds

/-- The alternating CJK / non-CJK partition of a line, as produced by
`pattern.finditer` in `_normalize_characters`. -/
def splitCJKruns : Str → List Str
  | [] => []
  | c :: cs => splitCJKGo (isCJK c) [c] cs

/-- Which branch of the two-group pattern a (nonempty, homogeneous) part
matched: decided by its first character. -/
def partIsCJK (r : Str) : Bool :=
  match r with
  | [] => false
  | c :: _ => isCJK c

/-- Method `_normalize_characters`: the global `CHAR_MAPPING` pass, the scoped
punctuation passes on the CJK / non-CJK parts, then whitespace collapsing
and trimming. -/
def normalizeCharacters (line : Str) : Str :=
  let l1 := applyMapping CHAR_MAPPING line
  let parts := splitCJKruns l1
  let l2 := (parts.map (fun r =>
    if partIsCJK r then normalizeChinesePunctuation r
    else normalizeEnglishPunctuation r)).flatten
  wsClean l2

/-- The marker alternatives `\[\d+\]` / `\(\d+\)` of
`self.numbering_pattern` with the opening bracket already consumed: a
nonempty digit run, then the closing character; returns the digit run and
the text after the marker. -/
def matchClosedForm (close : Char) (t : Str) : Option (Str × Str) :=
  if (t.takeWhile isPyDigit).isEmpty then none
  else if (t.dropWhile isPyDigit).head? = some close then
    some (t.takeWhile isPyDigit, (t.dropWhile isPyDigit).tail)
  else none

/-- The alternative `\d+\.` (a nonempty digit run followed by a literal
dot). -/
def matchDotForm (t : Str) : Option (Str × Str) :=
  if (t.takeWhile isPyDigit).isEmpty then none
  else if (t.dropWhile isPyDigit).head? = some '.' then
    some (t.takeWhile isPyDigit, (t.dropWhile isPyDigit).tail)
  else none

/-- The three alternatives in order (their first characters — `[`, `(`, a
digit — are mutually exclusive, so the regex alternation order is
immaterial). -/
def matchMarker (t : Str) : Option (Str × Str) :=
  match t with
  | [] => none
  | c :: rest =>
    if c = '[' then matchClosedForm ']' rest
    else if c = '(' then matchClosedForm ')' rest
    else matchDotForm (c :: rest)

/-- Method `_strip_numbering`: match `^\s*(\[\d+\]|\(\d+\)|\d+\.)\s*`; on a match
return the rest of the line trimmed, `True`, and the integer value of the
digit run (`match.group(1).strip('[]() .')` leaves exactly the digit run,
and `int` on a nonempty digit run never fails); otherwise the trimmed line,
`False`, `0`. -/
def stripNumbering (line : Str) : Str × Bool × Nat :=
  match matchMarker (line.dropWhile isPySpace) with
  | some (d, r) => (pyStrip (r.dropWhile isPySpace), true, digitsToNat d)
  | none => (pyStrip line, false, 0)

/-- The three alternatives of the run-splitting regex in
`_apply_mixed_font_styles`: CJK ideographs, ASCII letters / digits /
whitespace, and remaining non-CJK non-whitespace characters. -/
inductive RunClass where
  | cjk
  | latin
  | other
deriving DecidableEq, Repr

/-- Which alternative matches first at a given character. -/
def classOf (c : Char) : RunClass :=
  if isCJK c then .cjk
  else if isAlnumWs c then .latin
  else .other

/-- The character set a run of a given class greedily absorbs
(`[一-鿿]+`, `[a-zA-Z0-9\s]+`, `[^一-鿿\s]+`). -/
def classPred : RunClass → Char → Bool
  | .cjk => isCJK
  | .latin => isAlnumWs
  | .other => fun c => !isCJK c && !isPySpace c

/-- Left-to-right scanner for the three-alternative pattern: `k` is the
class of the run being grown, `acc` its characters reversed; a character
that cannot extend the run closes it and opens a run of its own class. -/
def splitRunsGo (k : RunClass) (acc : Str) : Str → List (Str × RunClass)
  | [] => [(acc.reverse, k)]
  | d :: ds =>
    if classPred k d then splitRunsGo k (d :: acc) ds
    else (acc.reverse, k) :: splitRunsGo (classOf d) [d] ds

/-- The run decomposition computed by `pattern.finditer` in
`_apply_mixed_font_styles`. -/
def splitRuns : Str → List (Str × RunClass)
  | [] => []
  | c :: cs => splitRunsGo (classOf c) [c] cs

/-- Python `html.escape` (with its default `quote=True`): since `&` is replaced
first and no replacement text contains a character replaced later, the
sequential `str.replace` calls act character-wise. -/
def escChar (c : Char) : Str :=
  if c = '&' then ("&amp;").toList
  else if c = '<' then ("&lt;").toList
  else if c = '>' then ("&gt;").toList
  else if c = '"' then ("&quot;").toList
  else if c = '\'' then ("&#x27;").toList
  else [c]

/-- Python `html.escape` on a whole string. -/
def htmlEscape (s : Str) : Str :=
  s.flatMap escChar

/-- Python `html.unescape`, restricted to the entity references that
`html.escape` emits (on any output of `html.escape` this agrees with the
full CPython table, since every `&` there begins one of these five
references). -/
def htmlUnescape : Str → Str
  | [] => []
  | c :: rest =>
    let tailU := htmlUnescape rest
    if c = '&' then
      match rest with
      | c1 :: c2 :: c3 :: r3 =>
        if c1 = 'l' ∧ c2 = 't' ∧ c3 = ';' then '<' :: htmlUnescape r3
        else if c1 = 'g' ∧ c2 = 't' ∧ c3 = ';' then '>' :: htmlUnescape r3
        else
          match r3 with
          | c4 :: r4 =>
            if c1 = 'a' ∧ c2 = 'm' ∧ c3 = 'p' ∧ c4 = ';' then '&' :: htmlUnescape r4
            else
              match r4 with
              | c5 :: r5 =>
                if c1 = 'q' ∧ c2 = 'u' ∧ c3 = 'o' ∧ c4 = 't' ∧ c5 = ';' then
                  '"' :: htmlUnescape r5
                else if c1 = '#' ∧ c2 = 'x' ∧ c3 = '2' ∧ c4 = '7' ∧ c5 = ';' then
                  '\'' :: htmlUnescape r5
                else c :: tailU
              | [] => c :: tailU
          | [] => c :: tailU
      | _ => c :: tailU
    else c :: tailU

/-- Constant `self.CHINESE_FONT`. -/
def CHINESE_FONT : Str := ("SimSun").toList

/-- Constant `self.ENGLISH_FONT`. -/
def ENGLISH_FONT : Str := ("Times New Roman").toList

/-- The CJK punctuation sniff set `'，。：；！？'` used for `other` runs. -/
def cjkPunctSniff : Str := ("，。：；！？").toList

/-- The `<span ...>...</span>` wrapper emitted for one run (the f-string of
`_apply_mixed_font_styles`, identical for all three branches up to the
font name). -/
def spanWrap (font : Str) (content : Str) : Str :=
  ("<span style=\"font-family: '").toList ++ font ++
  ("'; mso-hansi-font-family: '").toList ++ font ++
  ("'; mso-bidi-font-family: '").toList ++ font ++
  ("'; mso-ascii-font-family: '").toList ++ font ++
  ("';\">").toList ++ content ++ ("</span>").toList

/-- Font chosen for one run: CJK runs get the Chinese font, Latin runs the
English font, `other` runs the Chinese font exactly when they contain a
character of the sniff set. -/
def runFont (r : Str) (k : RunClass) : Str :=
  match k with
  | .cjk => CHINESE_FONT
  | .latin => ENGLISH_FONT
  | .other => if r.any (fun c => cjkPunctSniff.contains c) then CHINESE_FONT else ENGLISH_FONT

/-- Method `_apply_mixed_font_styles`: split into runs, HTML-escape each run and
wrap it in its font-tagged span. -/
def applyMixedFontStyles (line : Str) : Str :=
  ((splitRuns line).map (fun rk => spanWrap (runFont rk.1 rk.2) (htmlEscape rk.1))).flatten

/-- Decimal representation of a `Nat` (Python `f"{i}"`). -/
def natToStr (n : Nat) : Str :=
  Nat.toDigits 10 n

/-- Method `_generate_plain_text_list`: prefix each entry with `i` and a dot, unescaping entities, for `i`
counting from 1, joined with newlines. -/
def generatePlainTextList (references : List Str) : Str :=
  List.intercalate ("\n").toList
    ((references.enumFrom 1).map (fun p => natToStr p.1 ++ (". ").toList ++ htmlUnescape p.2))

/-- The `list_item` f-string of `_generate_html_list` (braces written
`\x7b`/`\x7d` throughout the document literals). -/
def liItem (content : Str) : Str :=
  ("\n            <li style=\"margin-bottom: 6pt;\">\n                ").toList ++
  content ++ ("\n            </li>\n            ").toList

/-- The `style` f-string of `_generate_html_list`, with
`{self.ENGLISH_FONT}` substituted. -/
def styleBlock : Str :=
  ("\n        <style>\n            /* Word原生自动编号样式 */\n            ol \x7b\n                list-style-type: none;\n                counter-reset: item;\n                margin: 0;\n                padding: 0;\n            \x7d\n            li \x7b\n                display: block;\n                margin-bottom: 6pt;\n                margin-left: 0;\n                padding-left: 24pt;\n                text-indent: -12pt;\n            \x7d\n            li:before \x7b\n                content: counter(item) \". \";\n                counter-increment: item;\n                display: inline-block;\n                width: 12pt;\n                margin-left: -12pt;\n                font-family: 'Times New Roman';\n                font-weight: normal;\n            \x7d\n            /* 确保Word兼容性 */\n            @list l0:level1 \x7b\n                mso-level-number-format: decimal;\n                mso-level-text: \"%1.\";\n                mso-level-tab-stop: 36.0pt;\n                mso-level-number-position: left;\n                margin-left: 36.0pt;\n                text-indent: -18.0pt;\n            \x7d\n        </style>\n        ").toList

/-- Document text of the `html_string` f-string before the joined items. -/
def docPre : Str :=
  ("\n        <html xmlns:o=\"urn:schemas-microsoft-com:office:office\"\n              xmlns:w=\"urn:schemas-microsoft-com:office:word\"\n              xmlns:m=\"http://schemas.microsoft.com/office/2004/12/omml\">\n        <head>\n            <meta charset=\"UTF-8\">\n            ").toList ++
  styleBlock ++
  ("\n        </head>\n        <body>\n        <!--[if supportLists]>\n        <ol style=\"list-style-type: decimal;\">\n        <![endif]-->\n        <!--[if supportLists]><!-->\n        ").toList

/-- Document text of the `html_string` f-string after the joined items. -/
def docPost : Str :=
  ("\n        <!--[endif]-->\n        <!--[if supportLists]>\n        </ol>\n        <![endif]-->\n        </body>\n        </html>\n        ").toList

/-- The separator `'<!--[endif]--><!--[if supportLists]-->'` of the
`.join` in `_generate_html_list`. -/
def itemSep : Str :=
  ("<!--[endif]--><!--[if supportLists]-->").toList

/-- Method `_generate_html_list`: empty string on no entries, otherwise the Word
HTML document wrapping the joined `<li>` items. -/
def generateHtmlList (styledHtmlReferences : List Str) : Str :=
  if styledHtmlReferences.isEmpty then []
  else
    docPre ++ List.intercalate itemSep (styledHtmlReferences.map liItem) ++ docPost

/-- The per-line body of the loop in `process_text`: skip lines blank after
trimming, otherwise strip numbering and normalize; the pair carries the
normalized text and the `stripped` flag of this line. -/
def processLine (line : Str) : Option (Str × Bool) :=
  let l := pyStrip line
  if l.isEmpty then none
  else
    let sn := stripNumbering l
    some (normalizeCharacters sn.1, sn.2.1)

/-- Method `process_text` (the `format_name` argument of the source is unused by
the source itself): returns the Word HTML output, the plain-text output and
the was-numbering-stripped flag. -/
def processText (rawText : Str) : Str × Str × Bool :=
  if (pyStrip rawText).isEmpty then ([], [], false)
  else
    let lines := (pyStrip rawText).splitOn '\n'
    let processed := lines.filterMap processLine
    let wasStripped := processed.any (fun p => p.2)
    let plainRefs := processed.map (fun p => htmlEscape p.1)
    let styledRefs := processed.map (fun p => applyMixedFontStyles p.1)
    (generateHtmlList styledRefs, generatePlainTextList plainRefs, wasStripped)

/-- Operation `render_styled` of the specification: the styled markup document built
from raw entry texts (span-styling then `_generate_html_list`). -/
def renderStyled (entries : List Str) : Str :=
  generateHtmlList (entries.map applyMixedFontStyles)

/-- The anchored pattern `^\[\d+\]` of `_has_formatted_numbering`
(`re.match`: a prefix match). -/
def matchBracketNum : Str → Bool
  | '[' :: t =>
    !(t.takeWhile isPyDigit).isEmpty &&
      (match t.dropWhile isPyDigit with
       | ']' :: _ => true
       | _ => false)
  | _ => false

/-- The anchored pattern `^\d+\.` of `_has_formatted_numbering`. -/
def matchDotNum (t : Str) : Bool :=
  !(t.takeWhile isPyDigit).isEmpty &&
    (match t.dropWhile isPyDigit with
     | '.' :: _ => true
     | _ => false)

/-- The anchored pattern `^\(\d+\)` of `_has_formatted_numbering`. -/
def matchParenNum : Str → Bool
  | '(' :: t =>
    !(t.takeWhile isPyDigit).isEmpty &&
      (match t.dropWhile isPyDigit with
       | ')' :: _ => true
       | _ => false)
  | _ => false

/-- Method `_has_formatted_numbering`: any of the three anchored patterns matches
the stripped line. -/
def hasFormattedNumbering (line : Str) : Bool :=
  matchBracketNum (pyStrip line) || matchDotNum (pyStrip line) ||
    matchParenNum (pyStrip line)

/-- Loop body of `_detect_boundary_lines` for the lines after the first:
`prev` is the predecessor line. -/
def detectGo (prev : Str) : List Str → List (Str × Bool)
  | [] => []
  | cur :: rest =>
    let curS := pyStrip cur
    let isNew :=
      !curS.isEmpty && (hasFormattedNumbering curS || (pyStrip prev).isEmpty)
    (cur, isNew) :: detectGo cur rest

/-- Method `_detect_boundary_lines`: the first line is always marked `True`. -/
def detectBoundaryLines (lines : List Str) : List (Str × Bool) :=
  match lines with
  | [] => []
  | l0 :: rest => (l0, true) :: detectGo l0 rest

/-- ASCII-case-insensitive prefix test (the effect of `re.IGNORECASE` on
the all-ASCII tag patterns of the extraction regexes). -/
def isPrefixOfCI (pat s : Str) : Bool :=
  match pat, s with
  | [], _ => true
  | _ :: _, [] => false
  | p :: ps, c :: cs => (p.toLower == c.toLower) && isPrefixOfCI ps cs

/-- Scanner for the leftmost occurrence of `needle` (case-insensitively):
`acc` holds the characters already passed, reversed. -/
def splitAtSubCIGo (needle : Str) (acc : Str) : Str → Option (Str × Str)
  | [] => if isPrefixOfCI needle [] then some (acc.reverse, []) else none
  | c :: cs =>
    if isPrefixOfCI needle (c :: cs) then some (acc.reverse, (c :: cs).drop needle.length)
    else splitAtSubCIGo needle (c :: acc) cs

/-- Leftmost occurrence of `needle` (case-insensitively) in `s`: returns
the text before it and the text after it, like the anchoring step of an
`re.search` / `finditer` scan. -/
def splitAtSubCI (needle : Str) (s : Str) : Option (Str × Str) :=
  splitAtSubCIGo needle [] s

/-- Python `re.sub('<[^<]+?>', '', s)`: remove every minimal `<...>` span that
contains no inner `<`.  Fuel-based scanner; each step consumes at least one
character, so fuel `s.length` suffices. -/
def stripTagsGo : Nat → Str → Str
  | 0, s => s
  | _ + 1, [] => []
  | f + 1, '<' :: cs =>
    let seg := cs.takeWhile (fun d => !(d == '>') && !(d == '<'))
    match cs.drop seg.length with
    | '>' :: rest =>
      if seg.isEmpty then '<' :: '>' :: stripTagsGo f rest
      else stripTagsGo f rest
    | _ => '<' :: stripTagsGo f cs
  | f + 1, c :: cs => c :: stripTagsGo f cs

/-- Wrapper fixing the fuel. -/
def stripTags (s : Str) : Str :=
  stripTagsGo s.length s

/-- Method `_extract_body_content`: search `<body[^>]*>(.*?)</body>`
with the group stripped; the whole input if there is no match.  (The
source's `try/except` never fires: the body is pure string work.) -/
def extractBodyContent (htmlContent : Str) : Str :=
  match splitAtSubCI (("<body").toList) htmlContent with
  | none => htmlContent
  | some (_, rest) =>
    match rest.dropWhile (fun d => !(d == '>')) with
    | '>' :: inner =>
      match splitAtSubCI (("</body>").toList) inner with
      | some (content, _) => pyStrip content
      | none => htmlContent
    | _ => htmlContent

/-- One round of `li_pattern.finditer`: locate `<li`, skip `[^>]*>`, take
the minimal content up to `</li>`, and continue after it.  The first
argument is fuel bounding the number of list items; one fuel character is
spent per item, so the scanned text itself is enough fuel. -/
def extractLiGo : Str → Str → List Str
  | [], _ => []
  | _ :: f, s =>
    match splitAtSubCI (("<li").toList) s with
    | none => []
    | some (_, rest) =>
      match rest.dropWhile (fun d => !(d == '>')) with
      | '>' :: inner =>
        match splitAtSubCI (("</li>").toList) inner with
        | some (content, after) => content :: extractLiGo f after
        | none => []
      | _ => []

/-- Method `_extract_references_from_html`: find the list items of the body, strip
tags, unescape entities, collapse whitespace, and keep the non-empty
results. -/
def extractReferencesFromHtml (htmlContent : Str) : List Str :=
  let body := extractBodyContent htmlContent
  (extractLiGo body body).filterMap (fun li =>
    let clean := pyStrip (collapseWs (htmlUnescape (stripTags li)))
    if clean.isEmpty then none else some clean)

/-- Composite per-character effect of `_normalize_english_punctuation`. -/
def mEChar (c : Char) : Char :=
  mapChar fullToHalf (mapChar fwDigitMap c)

/-- Per-character effect of the script-scoped second pass of
`_normalize_characters`. -/
def gChar (c : Char) : Char :=
  if isCJK c then mapChar halfToFull c else mEChar c

/-- Per-character effect of the whole pipeline before whitespace
collapsing: the global `CHAR_MAPPING` pass, then the scoped pass. -/
def hChar (c : Char) : Char :=
  gChar (mapChar CHAR_MAPPING c)

/-- Well-formed whitespace: every whitespace character is an ASCII space
and no two adjacent characters are both whitespace. -/
def okWs : Str → Bool
  | [] => true
  | c :: t =>
    (!isPySpace c || c == ' ') &&
      (match t with
       | [] => true
       | d :: _ => !(isPySpace c && isPySpace d)) && okWs t

/-- The per-line start rule exactly as the specification words it: the
trimmed line matches one of the three anchored numbering regexes, or the
line is non-empty (after trimming) while the predecessor trims to
empty. -/
def boundarySpecFlag (prev cur : Str) : Bool :=
  (matchBracketNum (pyStrip cur) || matchDotNum (pyStrip cur) ||
    matchParenNum (pyStrip cur)) ||
  (!(pyStrip cur).isEmpty && (pyStrip prev).isEmpty)

/-- The boundary detector as the specification describes it: first line
always `true`, each later line judged from itself and its predecessor. -/
def detectBoundarySpec (lines : List Str) : List (Str × Bool) :=
  match lines with
  | [] => []
  | l0 :: rest =>
    (l0, true) :: (rest.zip lines).map (fun cp => (cp.1, boundarySpecFlag cp.2 cp.1))

/-! ### Generic helper lemmas -/

theorem map_eq_self_of_mem {f : Char → Char} {t : Str} (h : ∀ c ∈ t, f c = c) :
    t.map f = t := by
  induction t with
  | nil => rfl
  | cons c cs ih =>
    simp only [List.map_cons, h c (List.mem_cons_self c cs)]
    rw [ih (fun d hd => h d (List.mem_cons_of_mem _ hd))]

theorem mapChar_eq_self {m : List (Char × Char)} {c : Char}
    (h : ∀ q ∈ m, q.1 ≠ c) : mapChar m c = c := by
  unfold mapChar
  cases hf : m.find? (fun p => p.1 = c) with
  | none => rfl
  | some p =>
    have hm := List.mem_of_find?_eq_some hf
    have hp := List.find?_some hf
    simp only [decide_eq_true_eq] at hp
    exact absurd hp (h p hm)

theorem mapChar_cases (m : List (Char × Char)) (c : Char) :
    mapChar m c = c ∨ ∃ p ∈ m, mapChar m c = p.2 := by
  unfold mapChar
  cases hf : m.find? (fun p => p.1 = c) with
  | none => exact Or.inl rfl
  | some p => exact Or.inr ⟨p, List.mem_of_find?_eq_some hf, rfl⟩

theorem applyMapping_eq_map (m : List (Char × Char))
    (h : ∀ p ∈ m, ∀ q ∈ m, p.2 ≠ q.1) (s : Str) :
    applyMapping m s = s.map (mapChar m) := by
  induction m generalizing s with
  | nil =>
    show s = s.map (mapChar [])
    rw [map_eq_self_of_mem (fun c _ => by rfl)]
  | cons p m ih =>
    have hstep : applyMapping (p :: m) s =
        applyMapping m (s.map (fun c => if c = p.1 then p.2 else c)) := rfl
    rw [hstep, ih (fun a ha b hb =>
      h a (List.mem_cons_of_mem _ ha) b (List.mem_cons_of_mem _ hb)), List.map_map]
    apply List.map_congr_left
    intro c _
    simp only [Function.comp_apply]
    by_cases hc : c = p.1
    · subst hc
      rw [if_pos rfl]
      have h1 : mapChar (p :: m) p.1 = p.2 := by
        unfold mapChar
        rw [List.find?_cons_of_pos _ (by simp)]
      rw [h1, mapChar_eq_self]
      intro q hq he
      exact h p (List.mem_cons_self p m) q (List.mem_cons_of_mem _ hq) he.symm
    · rw [if_neg hc]
      unfold mapChar
      rw [List.find?_cons_of_neg _ (by simp; exact fun e => hc e.symm)]

/-! ### The mixed-script run splitter (claim C2) -/

theorem splitRunsGo_flatten (k : RunClass) (acc s : Str) :
    ((splitRunsGo k acc s).map Prod.fst).flatten = acc.reverse ++ s := by
  induction s generalizing k acc with
  | nil => simp [splitRunsGo]
  | cons d ds ih =>
    unfold splitRunsGo
    split
    · rw [ih]
      simp
    · simp only [List.map_cons, List.flatten_cons, ih]
      simp

theorem splitRunsGo_nonempty (k : RunClass) (acc s : Str) (h : acc ≠ []) :
    ((splitRunsGo k acc s).all fun rk => !rk.1.isEmpty) = true := by
  induction s generalizing k acc with
  | nil => simp [splitRunsGo, h]
  | cons d ds ih =>
    unfold splitRunsGo
    split
    · exact ih _ _ (by simp)
    · simp only [List.all_cons, Bool.and_eq_true]
      exact ⟨by simp [h], ih _ _ (by simp)⟩

/-- C2.  The mixed-script run splitter of `_apply_mixed_font_styles` is a
lossless partition: the runs are non-empty and their concatenation, in
order, is exactly the input string.  (Non-overlap and left-to-right order
are inherent in the run-list representation: the input is recovered by
concatenating the runs in list order.) -/
theorem split_runs_lossless (s : Str) :
    ((splitRuns s).map Prod.fst).flatten = s ∧
      ((splitRuns s).all fun rk => !rk.1.isEmpty) = true := by
  cases s with
  | nil => exact ⟨rfl, rfl⟩
  | cons c cs =>
    refine ⟨?_, splitRunsGo_nonempty _ _ _ (by simp)⟩
    rw [show splitRuns (c :: cs) = splitRunsGo (classOf c) [c] cs from rfl,
      splitRunsGo_flatten]
    rfl

/-! ### Whitespace and digit facts -/

theorem isPySpace_of_isPyDigit {c : Char} (h : isPyDigit c = true) :
    isPySpace c = false := by
  rw [Bool.eq_false_iff]
  intro hs
  simp only [isPyDigit, Bool.or_eq_true, Bool.and_eq_true, decide_eq_true_eq] at h
  simp only [isPySpace, Bool.or_eq_true, Bool.and_eq_true, decide_eq_true_eq,
    beq_iff_eq] at hs
  omega

theorem dropWhile_append_all {p : Char → Bool} {w : Str}
    (hw : ∀ c ∈ w, p c = true) (t : Str) :
    (w ++ t).dropWhile p = t.dropWhile p := by
  induction w with
  | nil => rfl
  | cons c cs ih =>
    rw [List.cons_append, List.dropWhile_cons, if_pos (hw c (List.mem_cons_self c cs))]
    exact ih (fun d hd => hw d (List.mem_cons_of_mem _ hd))

theorem takeWhile_append_stop {p : Char → Bool} {d : Str}
    (hd : ∀ c ∈ d, p c = true) {x : Char} (hx : p x = false) (r : Str) :
    (d ++ x :: r).takeWhile p = d := by
  induction d with
  | nil => simp [List.takeWhile_cons, hx]
  | cons c cs ih =>
    rw [List.cons_append, List.takeWhile_cons]
    simp only [hd c (List.mem_cons_self c cs), if_true]
    rw [ih (fun e he => hd e (List.mem_cons_of_mem _ he))]

theorem dropWhile_append_stop {p : Char → Bool} {d : Str}
    (hd : ∀ c ∈ d, p c = true) {x : Char} (hx : p x = false) (r : Str) :
    (d ++ x :: r).dropWhile p = x :: r := by
  rw [dropWhile_append_all hd, List.dropWhile_cons, if_neg (by simp [hx])]

theorem pyStrip_dropWhile (s : Str) :
    pyStrip (s.dropWhile isPySpace) = pyStrip s := by
  unfold pyStrip
  rw [List.dropWhile_idempotent]

theorem dropWhile_pyStrip (s : Str) :
    (pyStrip s).dropWhile isPySpace = pyStrip s := by
  unfold pyStrip
  cases hr : List.rdropWhile isPySpace (s.dropWhile isPySpace) with
  | nil => rfl
  | cons x xs =>
    obtain ⟨t, ht⟩ := List.rdropWhile_prefix isPySpace (s.dropWhile isPySpace)
    rw [hr] at ht
    have hx : isPySpace x = false := by
      have h0 := (List.dropWhile_eq_self_iff.mp
        (List.dropWhile_idempotent (l := s) (p := isPySpace)))
      rw [← ht] at h0
      have := h0 (by simp)
      simpa using this
    rw [List.dropWhile_cons, if_neg (by simp [hx])]

theorem pyStrip_idem (s : Str) : pyStrip (pyStrip s) = pyStrip s := by
  conv_lhs => rw [pyStrip, dropWhile_pyStrip]
  rw [pyStrip, List.rdropWhile_idempotent]

theorem stripNumbering_fst_stripped (line : Str) :
    pyStrip (stripNumbering line).1 = (stripNumbering line).1 := by
  unfold stripNumbering
  cases matchMarker (line.dropWhile isPySpace) with
  | none => exact pyStrip_idem line
  | some dr => exact pyStrip_idem _

/-! ### The numbering stripper (claims C4, C5) -/

theorem ne_of_digit_nondigit {c x : Char} (h : isPyDigit c = true)
    (hx : isPyDigit x = false) : c ≠ x := by
  intro e
  rw [e, hx] at h
  cases h

theorem matchClosedForm_sound {close : Char} {t d r : Str}
    (h : matchClosedForm close t = some (d, r)) :
    d ≠ [] ∧ (∀ c ∈ d, isPyDigit c = true) ∧ t = d ++ close :: r := by
  unfold matchClosedForm at h
  by_cases he : (t.takeWhile isPyDigit).isEmpty = true
  · rw [if_pos he] at h
    cases h
  · rw [if_neg he] at h
    by_cases hh : (t.dropWhile isPyDigit).head? = some close
    · rw [if_pos hh] at h
      injection h with h1
      injection h1 with hd2 hr2
      subst hd2
      subst hr2
      cases hdw : t.dropWhile isPyDigit with
      | nil => rw [hdw] at hh; cases hh
      | cons e r2 =>
        rw [hdw] at hh
        injection hh with he2
        subst he2
        refine ⟨by simpa using he, fun c hc => List.mem_takeWhile_imp hc, ?_⟩
        simp only [List.tail_cons]
        conv_lhs => rw [← List.takeWhile_append_dropWhile isPyDigit t]
        rw [hdw]
    · rw [if_neg hh] at h
      cases h

theorem matchDotForm_sound {t d r : Str}
    (h : matchDotForm t = some (d, r)) :
    d ≠ [] ∧ (∀ c ∈ d, isPyDigit c = true) ∧ t = d ++ '.' :: r := by
  unfold matchDotForm at h
  by_cases he : (t.takeWhile isPyDigit).isEmpty = true
  · rw [if_pos he] at h
    cases h
  · rw [if_neg he] at h
    by_cases hh : (t.dropWhile isPyDigit).head? = some '.'
    · rw [if_pos hh] at h
      injection h with h1
      injection h1 with hd2 hr2
      subst hd2
      subst hr2
      cases hdw : t.dropWhile isPyDigit with
      | nil => rw [hdw] at hh; cases hh
      | cons e r2 =>
        rw [hdw] at hh
        injection hh with he2
        subst he2
        refine ⟨by simpa using he, fun c hc => List.mem_takeWhile_imp hc, ?_⟩
        simp only [List.tail_cons]
        conv_lhs => rw [← List.takeWhile_append_dropWhile isPyDigit t]
        rw [hdw]
    · rw [if_neg hh] at h
      cases h

theorem matchMarker_some_sound {t d r : Str}
    (h : matchMarker t = some (d, r)) :
    d ≠ [] ∧ (∀ c ∈ d, isPyDigit c = true) ∧
      (t = '[' :: (d ++ ']' :: r) ∨ t = '(' :: (d ++ ')' :: r) ∨
        t = d ++ '.' :: r) := by
  cases t with
  | nil => cases h
  | cons c rest =>
    simp only [matchMarker] at h
    by_cases h1 : c = '['
    · rw [if_pos h1] at h
      obtain ⟨hne, hdig, hsh⟩ := matchClosedForm_sound h
      exact ⟨hne, hdig, Or.inl (by rw [h1, hsh])⟩
    · rw [if_neg h1] at h
      by_cases h2 : c = '('
      · rw [if_pos h2] at h
        obtain ⟨hne, hdig, hsh⟩ := matchClosedForm_sound h
        exact ⟨hne, hdig, Or.inr (Or.inl (by rw [h2, hsh]))⟩
      · rw [if_neg h2] at h
        obtain ⟨hne, hdig, hsh⟩ := matchDotForm_sound h
        exact ⟨hne, hdig, Or.inr (Or.inr hsh)⟩

theorem matchClosedForm_complete {close : Char} (hc : isPyDigit close = false)
    (d r : Str) (hne : d ≠ []) (hd : ∀ c ∈ d, isPyDigit c = true) :
    matchClosedForm close (d ++ close :: r) = some (d, r) := by
  unfold matchClosedForm
  rw [takeWhile_append_stop hd hc r, dropWhile_append_stop hd hc r,
    if_neg (by simp [hne]), if_pos (by simp)]
  simp

theorem matchDotForm_complete (d r : Str) (hne : d ≠ [])
    (hd : ∀ c ∈ d, isPyDigit c = true) :
    matchDotForm (d ++ '.' :: r) = some (d, r) := by
  unfold matchDotForm
  rw [takeWhile_append_stop hd (by decide) r, dropWhile_append_stop hd (by decide) r,
    if_neg (by simp [hne]), if_pos (by simp)]
  simp

theorem matchMarker_bracket (d r : Str) (hne : d ≠ [])
    (hd : ∀ c ∈ d, isPyDigit c = true) :
    matchMarker ('[' :: (d ++ ']' :: r)) = some (d, r) := by
  simp only [matchMarker, if_pos rfl]
  exact matchClosedForm_complete (by decide) d r hne hd

theorem matchMarker_paren (d r : Str) (hne : d ≠ [])
    (hd : ∀ c ∈ d, isPyDigit c = true) :
    matchMarker ('(' :: (d ++ ')' :: r)) = some (d, r) := by
  simp only [matchMarker, if_neg (by decide : ¬('(' : Char) = '['), if_pos rfl]
  exact matchClosedForm_complete (by decide) d r hne hd

theorem matchMarker_dot (d r : Str) (hne : d ≠ [])
    (hd : ∀ c ∈ d, isPyDigit c = true) :
    matchMarker (d ++ '.' :: r) = some (d, r) := by
  cases d with
  | nil => exact absurd rfl hne
  | cons dc dt =>
    have hdc : isPyDigit dc = true := hd dc (List.mem_cons_self dc dt)
    rw [List.cons_append]
    simp only [matchMarker,
      if_neg (ne_of_digit_nondigit hdc (by decide : isPyDigit '[' = false)),
      if_neg (ne_of_digit_nondigit hdc (by decide : isPyDigit '(' = false))]
    rw [← List.cons_append]
    exact matchDotForm_complete (dc :: dt) r hne hd

theorem stripNumbering_of_marker (w d r : Str)
    (hw : ∀ c ∈ w, isPySpace c = true) (hne : d ≠ [])
    (hd : ∀ c ∈ d, isPyDigit c = true) (m : Str)
    (hm : matchMarker m = some (d, r))
    (hm0 : isPySpace (m.headD '0') = false) (hm1 : m ≠ []) :
    stripNumbering (w ++ m) = (pyStrip r, true, digitsToNat d) := by
  unfold stripNumbering
  rw [dropWhile_append_all hw]
  cases m with
  | nil => exact absurd rfl hm1
  | cons c cs =>
    rw [List.dropWhile_cons, if_neg (by simp_all [List.headD])]
    rw [hm]
    show (pyStrip (r.dropWhile isPySpace), true, digitsToNat d) = _
    rw [pyStrip_dropWhile]

/-- C4.  `_strip_numbering` behaves as specified: on a line consisting of
optional leading whitespace, a marker `[d]`, `(d)` or `d.` with a nonempty
digit run `d`, and a remainder, it returns the trimmed remainder, `true`,
and the integer value of the digit run (the conversion never fails on a
digit run, so the `0` fallback of the source is not exercised); on a line
carrying no such marker it returns the trimmed line, `false` and `0`. -/
theorem strip_numbering_spec (line : Str) :
    (∀ w d r, (∀ c ∈ w, isPySpace c = true) → d ≠ [] →
      (∀ c ∈ d, isPyDigit c = true) →
      ((line = w ++ '[' :: (d ++ ']' :: r) →
          stripNumbering line = (pyStrip r, true, digitsToNat d)) ∧
       (line = w ++ '(' :: (d ++ ')' :: r) →
          stripNumbering line = (pyStrip r, true, digitsToNat d)) ∧
       (line = w ++ (d ++ '.' :: r) →
          stripNumbering line = (pyStrip r, true, digitsToNat d)))) ∧
    ((¬ ∃ w d r, (∀ c ∈ w, isPySpace c = true) ∧ d ≠ [] ∧
        (∀ c ∈ d, isPyDigit c = true) ∧
        (line = w ++ '[' :: (d ++ ']' :: r) ∨
         line = w ++ '(' :: (d ++ ')' :: r) ∨
         line = w ++ (d ++ '.' :: r))) →
      stripNumbering line = (pyStrip line, false, 0)) := by
  constructor
  · intro w d r hw hne hd
    refine ⟨?_, ?_, ?_⟩
    · intro hline
      subst hline
      exact stripNumbering_of_marker w d r hw hne hd _
        (matchMarker_bracket d r hne hd) (by simp [List.headD]; decide) (by simp)
    · intro hline
      subst hline
      exact stripNumbering_of_marker w d r hw hne hd _
        (matchMarker_paren d r hne hd) (by simp [List.headD]; decide) (by simp)
    · intro hline
      subst hline
      cases d with
      | nil => exact absurd rfl hne
      | cons dc dt =>
        have hdc : isPyDigit dc = true := hd dc (List.mem_cons_self dc dt)
        exact stripNumbering_of_marker w (dc :: dt) r hw hne hd _
          (matchMarker_dot (dc :: dt) r hne hd)
          (by simp only [List.cons_append, List.headD];
              exact isPySpace_of_isPyDigit hdc) (by simp)
  · intro hno
    unfold stripNumbering
    cases hm : matchMarker (line.dropWhile isPySpace) with
    | none => rfl
    | some dr =>
      exfalso
      apply hno
      obtain ⟨d0, r0⟩ := dr
      obtain ⟨hne, hdig, hshape⟩ := matchMarker_some_sound hm
      refine ⟨line.takeWhile isPySpace, d0, r0,
        fun c hc => List.mem_takeWhile_imp hc, hne, hdig, ?_⟩
      rcases hshape with h | h | h
      · left
        conv_lhs => rw [← List.takeWhile_append_dropWhile isPySpace line]
        rw [h]
      · right; left
        conv_lhs => rw [← List.takeWhile_append_dropWhile isPySpace line]
        rw [h]
      · right; right
        conv_lhs => rw [← List.takeWhile_append_dropWhile isPySpace line]
        rw [h]

/-- Witness for C4: both branches at concrete inputs. -/
theorem strip_numbering_spec_witness :
    stripNumbering ((" [12] hello ").toList) = (("hello").toList, true, 12) ∧
      stripNumbering (("no marker").toList) =
        (("no marker").toList, false, 0) := by
  constructor
  · exact (((strip_numbering_spec ((" [12] hello ").toList)).1
      ((" ").toList) (("12").toList) ((" hello ").toList)
      (by decide) (by decide) (by decide)).1 (by rfl)).trans (by rfl)
  · refine ((strip_numbering_spec (("no marker").toList)).2 ?_).trans (by rfl)
    intro hex
    obtain ⟨w, d, r, hw, hne, hd, hsh⟩ := hex
    have hF : (stripNumbering (("no marker").toList)).2.1 = false := by rfl
    rcases hsh with h | h | h
    · rw [((strip_numbering_spec (("no marker").toList)).1 w d r hw hne hd).1 h] at hF
      cases hF
    · rw [((strip_numbering_spec (("no marker").toList)).1 w d r hw hne hd).2.1 h] at hF
      cases hF
    · rw [((strip_numbering_spec (("no marker").toList)).1 w d r hw hne hd).2.2 h] at hF
      cases hF

/-- C5 fails on the code: for the line `"[1] [2] Some"` the first call
strips `[1] ` and returns `"[2] Some"`, and a second call on that cleaned
text does match again (`was_stripped = true`), contradicting the claimed
no-spurious-match guarantee. -/
theorem strip_numbering_second_call_matches :
    (stripNumbering (("[1] [2] Some").toList)).1 = ("[2] Some").toList ∧
      (stripNumbering (stripNumbering (("[1] [2] Some").toList)).1).2.1 = true ∧
      (stripNumbering (stripNumbering (("[1] [2] Some").toList)).1).1 =
        ("Some").toList := by
  exact ⟨rfl, rfl, rfl⟩

/-- C5 (amended): a second call of `_strip_numbering` on the cleaned text
of a first call returns that text unchanged with `was_stripped = false`
and number `0` PROVIDED the cleaned text does not itself begin with a
numbering marker; in general the cleaned text may start with a further
marker, which the second call strips. -/
theorem strip_numbering_amended (line : Str)
    (h : matchMarker (((stripNumbering line).1).dropWhile isPySpace) = none) :
    stripNumbering (stripNumbering line).1 =
      ((stripNumbering line).1, false, 0) := by
  have hps := stripNumbering_fst_stripped line
  generalize hg : (stripNumbering line).1 = c at h hps ⊢
  unfold stripNumbering
  rw [h]
  show (pyStrip c, false, 0) = (c, false, 0)
  rw [hps]

/-- Witness for the amended C5. -/
theorem strip_numbering_amended_witness :
    stripNumbering (stripNumbering (("[1] foo").toList)).1 =
      ((stripNumbering (("[1] foo").toList)).1, false, 0) :=
  strip_numbering_amended (("[1] foo").toList) (by rfl)

/-! ### The boundary detector (claim C6) -/

theorem boundary_flag_eq (prev cur : Str) :
    (!(pyStrip cur).isEmpty &&
      (hasFormattedNumbering (pyStrip cur) || (pyStrip prev).isEmpty)) =
      boundarySpecFlag prev cur := by
  unfold boundarySpecFlag hasFormattedNumbering
  rw [pyStrip_idem]
  cases hps : pyStrip cur with
  | nil => simp [matchBracketNum, matchDotNum, matchParenNum]
  | cons c cs =>
    cases matchBracketNum (c :: cs) <;> cases matchDotNum (c :: cs) <;>
      cases matchParenNum (c :: cs) <;> cases (pyStrip prev).isEmpty <;> rfl

theorem detectGo_eq_spec (rest : List Str) (prev : Str) :
    detectGo prev rest =
      (rest.zip (prev :: rest)).map (fun cp => (cp.1, boundarySpecFlag cp.2 cp.1)) := by
  induction rest generalizing prev with
  | nil => rfl
  | cons cur rest2 ih =>
    show (cur, _) :: detectGo cur rest2 = (cur, boundarySpecFlag prev cur) :: _
    rw [ih cur, boundary_flag_eq prev cur]
    rfl

/-- C6.  `_detect_boundary_lines` marks lines exactly as specified: the
empty sequence yields the empty sequence; the first line is always marked
`true` (even if empty); every later line is marked `true` exactly when its
trimmed text matches one of `^\[\d+\]`, `^\d+\.`, `^\(\d+\)`, or it is
non-blank and the previous line trims to empty ("non-empty" read, as the
code does, as non-empty after trimming). -/
theorem detect_boundary_lines_spec :
    detectBoundaryLines [] = [] ∧
      (∀ x, detectBoundaryLines [x] = [(x, true)]) ∧
      ∀ lines, detectBoundaryLines lines = detectBoundarySpec lines := by
  refine ⟨rfl, fun x => rfl, ?_⟩
  intro lines
  cases lines with
  | nil => rfl
  | cons l0 rest =>
    show (l0, true) :: detectGo l0 rest = (l0, true) :: _
    rw [detectGo_eq_spec rest l0]

/-! ### Entity escaping round trip -/

theorem htmlUnescape_amp (t : Str) :
    htmlUnescape ('&' :: 'a' :: 'm' :: 'p' :: ';' :: t) = '&' :: htmlUnescape t := by
  rw [htmlUnescape.eq_def]
  simp only []
  rw [if_pos trivial, if_neg (by decide), if_neg (by decide), if_pos (by decide)]

theorem htmlUnescape_lt (t : Str) :
    htmlUnescape ('&' :: 'l' :: 't' :: ';' :: t) = '<' :: htmlUnescape t := by
  rw [htmlUnescape.eq_def]
  simp only []
  rw [if_pos trivial, if_pos (by decide)]

theorem htmlUnescape_gt (t : Str) :
    htmlUnescape ('&' :: 'g' :: 't' :: ';' :: t) = '>' :: htmlUnescape t := by
  rw [htmlUnescape.eq_def]
  simp only []
  rw [if_pos trivial, if_neg (by decide), if_pos (by decide)]

theorem htmlUnescape_quot (t : Str) :
    htmlUnescape ('&' :: 'q' :: 'u' :: 'o' :: 't' :: ';' :: t) = '"' :: htmlUnescape t := by
  rw [htmlUnescape.eq_def]
  simp only []
  rw [if_pos trivial, if_neg (by decide), if_neg (by decide), if_neg (by decide),
    if_pos (by decide)]

theorem htmlUnescape_apos (t : Str) :
    htmlUnescape ('&' :: '#' :: 'x' :: '2' :: '7' :: ';' :: t) = '\'' :: htmlUnescape t := by
  rw [htmlUnescape.eq_def]
  simp only []
  rw [if_pos trivial, if_neg (by decide), if_neg (by decide), if_neg (by decide),
    if_neg (by decide), if_pos (by decide)]

theorem htmlUnescape_cons_ne (c : Char) (h : ¬c = '&') (rest : Str) :
    htmlUnescape (c :: rest) = c :: htmlUnescape rest := by
  rw [htmlUnescape.eq_def]
  simp only [if_neg h]

/-- On any output of `html.escape`, unescaping restores the original text
exactly (every `&` in escaped text starts one of the five emitted entity
references). -/
theorem htmlUnescape_htmlEscape (s : Str) : htmlUnescape (htmlEscape s) = s := by
  induction s with
  | nil => rfl
  | cons c cs ih =>
    have hap : htmlEscape (c :: cs) = escChar c ++ htmlEscape cs := rfl
    rw [hap]
    by_cases h1 : c = '&'
    · subst h1
      rw [show escChar '&' = ('&' :: 'a' :: 'm' :: 'p' :: [';']) from rfl]
      simp only [List.cons_append, List.nil_append]
      rw [htmlUnescape_amp, ih]
    · by_cases h2 : c = '<'
      · subst h2
        rw [show escChar '<' = ('&' :: 'l' :: 't' :: [';']) from rfl]
        simp only [List.cons_append, List.nil_append]
        rw [htmlUnescape_lt, ih]
      · by_cases h3 : c = '>'
        · subst h3
          rw [show escChar '>' = ('&' :: 'g' :: 't' :: [';']) from rfl]
          simp only [List.cons_append, List.nil_append]
          rw [htmlUnescape_gt, ih]
        · by_cases h4 : c = '"'
          · subst h4
            rw [show escChar '"' = ('&' :: 'q' :: 'u' :: 'o' :: 't' :: [';']) from rfl]
            simp only [List.cons_append, List.nil_append]
            rw [htmlUnescape_quot, ih]
          · by_cases h5 : c = '\''
            · subst h5
              rw [show escChar '\'' = ('&' :: '#' :: 'x' :: '2' :: '7' :: [';']) from rfl]
              simp only [List.cons_append, List.nil_append]
              rw [htmlUnescape_apos, ih]
            · rw [show escChar c = [c] from by
                simp only [escChar, if_neg h1, if_neg h2, if_neg h3, if_neg h4, if_neg h5]]
              simp only [List.cons_append, List.nil_append]
              rw [htmlUnescape_cons_ne c h1, ih]

/-! ### Per-line processing (claim C10) -/

theorem enumFrom_escape_unescape (xs : List (Str × Bool)) (n : Nat) :
    ((xs.map (fun p => htmlEscape p.1)).enumFrom n).map
        (fun p => natToStr p.1 ++ (". ").toList ++ htmlUnescape p.2) =
      ((xs.map Prod.fst).enumFrom n).map
        (fun p => natToStr p.1 ++ (". ").toList ++ p.2) := by
  induction xs generalizing n with
  | nil => rfl
  | cons x xs ih =>
    simp only [List.map_cons, List.enumFrom_cons, htmlUnescape_htmlEscape]
    rw [ih]

theorem processLine_map_fst (l : Str) :
    (processLine l).map Prod.fst =
      (if pyStrip l = [] then none
       else some (normalizeCharacters (stripNumbering (pyStrip l)).1)) := by
  by_cases h : pyStrip l = []
  · rw [if_pos h]
    unfold processLine
    rw [if_pos (by simp [h])]
    rfl
  · rw [if_neg h]
    unfold processLine
    rw [if_neg (by simp [h])]
    simp only [Option.map_some']

/-- C10.  `process_text` produces exactly one entry per input line that is
non-empty after trimming, in input order, and numbers the plain-text
output contiguously from 1 over those lines only: the plain output equals
the newline-join of `"{i}. "` plus the normalized, numbering-stripped text
of the i-th non-blank line. -/
theorem process_text_per_line (raw : Str) :
    (processText raw).2.1 =
      List.intercalate (("\n").toList)
        (((((pyStrip raw).splitOn '\n').filterMap (fun l =>
            if pyStrip l = [] then none
            else some (normalizeCharacters (stripNumbering (pyStrip l)).1))).enumFrom 1).map
          (fun p => natToStr p.1 ++ (". ").toList ++ p.2)) := by
  have hentries : ∀ lines : List Str,
      lines.filterMap (fun l =>
        if pyStrip l = [] then none
        else some (normalizeCharacters (stripNumbering (pyStrip l)).1)) =
      (lines.filterMap processLine).map Prod.fst := by
    intro lines
    rw [List.map_filterMap]
    exact (List.filterMap_congr (fun l _ => (processLine_map_fst l).symm))
  by_cases h0 : (pyStrip raw).isEmpty = true
  · have h0' : pyStrip raw = [] := by simpa using h0
    unfold processText
    rw [if_pos h0, h0']
    rfl
  · unfold processText
    rw [if_neg h0]
    show generatePlainTextList
        (((pyStrip raw).splitOn '\n').filterMap processLine |>.map
          (fun p => htmlEscape p.1)) = _
    rw [hentries ((pyStrip raw).splitOn '\n')]
    unfold generatePlainTextList
    rw [enumFrom_escape_unescape]

/-! ### The character normalizer as a per-character map (claim C1) -/

theorem values_not_keys_CM :
    ∀ p ∈ CHAR_MAPPING, ∀ q ∈ CHAR_MAPPING, p.2 ≠ q.1 := by decide

theorem values_not_keys_FTH :
    ∀ p ∈ fullToHalf, ∀ q ∈ fullToHalf, p.2 ≠ q.1 := by decide

theorem values_not_keys_HTF :
    ∀ p ∈ halfToFull, ∀ q ∈ halfToFull, p.2 ≠ q.1 := by decide

theorem applyMapping_CM (s : Str) :
    applyMapping CHAR_MAPPING s = s.map (mapChar CHAR_MAPPING) :=
  applyMapping_eq_map CHAR_MAPPING values_not_keys_CM s

theorem normE_eq_map (s : Str) :
    normalizeEnglishPunctuation s = s.map mEChar := by
  unfold normalizeEnglishPunctuation
  rw [applyMapping_eq_map fullToHalf values_not_keys_FTH, List.map_map]
  rfl

theorem normC_eq_map (s : Str) :
    normalizeChinesePunctuation s = s.map (mapChar halfToFull) :=
  applyMapping_eq_map halfToFull values_not_keys_HTF s

theorem mapChar_HTF_cjk {c : Char} (h : isCJK c = true) :
    mapChar halfToFull c = c := by
  apply mapChar_eq_self
  intro q hq
  have hlt : ∀ q2 ∈ halfToFull, q2.1.toNat < 0x4E00 := by decide
  have h1 := hlt q hq
  simp only [isCJK, Bool.and_eq_true, decide_eq_true_eq] at h
  intro e
  rw [e] at h1
  omega

theorem norm_part_eq_map (r : Str) (k : Bool) (hne : r ≠ [])
    (h : ∀ c ∈ r, isCJK c = k) :
    (if partIsCJK r then normalizeChinesePunctuation r
     else normalizeEnglishPunctuation r) = r.map gChar := by
  cases r with
  | nil => exact absurd rfl hne
  | cons a as =>
    have hpc : partIsCJK (a :: as) = isCJK a := rfl
    rw [hpc]
    by_cases hk2 : isCJK a = true
    · rw [if_pos hk2, normC_eq_map]
      apply List.map_congr_left
      intro c hc
      have hck : isCJK c = true := by rw [h c hc, ← h a (List.mem_cons_self a as), hk2]
      unfold gChar
      rw [if_pos hck]
    · rw [if_neg hk2, normE_eq_map]
      apply List.map_congr_left
      intro c hc
      have hck : isCJK c = false := by
        rw [h c hc, ← h a (List.mem_cons_self a as)]
        exact Bool.not_eq_true _ ▸ (Bool.eq_false_iff.mpr hk2)
      unfold gChar
      rw [if_neg (by simp [hck])]

theorem splitCJKGo_norm (s : Str) : ∀ (k : Bool) (acc : Str), acc ≠ [] →
    (∀ c ∈ acc, isCJK c = k) →
    ((splitCJKGo k acc s).map (fun r =>
      if partIsCJK r then normalizeChinesePunctuation r
      else normalizeEnglishPunctuation r)).flatten = (acc.reverse ++ s).map gChar := by
  induction s with
  | nil =>
    intro k acc hne hk
    show ((if partIsCJK acc.reverse then _ else _) ++ []) = _
    rw [List.append_nil, List.append_nil,
      norm_part_eq_map acc.reverse k (by simpa using hne)
        (fun c hc => hk c (List.mem_reverse.mp hc))]
  | cons d ds ih =>
    intro k acc hne hk
    unfold splitCJKGo
    by_cases hd : isCJK d = k
    · rw [if_pos hd, ih k (d :: acc) (by simp)
        (fun c hc => by
          rcases List.mem_cons.mp hc with h1 | h1
          · rw [h1]; exact hd
          · exact hk c h1)]
      simp [List.reverse_cons, List.append_assoc]
    · rw [if_neg hd]
      simp only [List.map_cons, List.flatten_cons]
      rw [ih (isCJK d) [d] (by simp) (by intro c hc; simp at hc; rw [hc]),
        norm_part_eq_map acc.reverse k (by simpa using hne)
          (fun c hc => hk c (List.mem_reverse.mp hc))]
      simp [List.map_append]

theorem split_norm_flatten (l1 : Str) :
    ((splitCJKruns l1).map (fun r =>
      if partIsCJK r then normalizeChinesePunctuation r
      else normalizeEnglishPunctuation r)).flatten = l1.map gChar := by
  cases l1 with
  | nil => rfl
  | cons c cs =>
    rw [show splitCJKruns (c :: cs) = splitCJKGo (isCJK c) [c] cs from rfl,
      splitCJKGo_norm cs (isCJK c) [c] (by simp) (by intro a ha; simp at ha; rw [ha])]
    rfl

theorem normalizeCharacters_eq (s : Str) :
    normalizeCharacters s = wsClean (s.map hChar) := by
  unfold normalizeCharacters
  simp only []
  rw [applyMapping_CM, split_norm_flatten, List.map_map]
  rfl

theorem hChar_fixed_values :
    ∀ v ∈ (CHAR_MAPPING.map Prod.snd ++ fwDigitMap.map Prod.snd ++
      fullToHalf.map Prod.snd), mapChar CHAR_MAPPING v = v ∧ gChar v = v := by
  decide

theorem fwd_values_fth_fixed :
    ∀ v ∈ fwDigitMap.map Prod.snd, mapChar fullToHalf v = v := by decide

theorem hChar_space : hChar ' ' = ' ' := by decide

theorem hChar_idem (c : Char) : hChar (hChar c) = hChar c := by
  rcases mapChar_cases CHAR_MAPPING c with hM | ⟨p, hp, hM⟩
  · by_cases hc : isCJK c = true
    · have hh : hChar c = c := by
        unfold hChar gChar
        rw [hM, if_pos hc, mapChar_HTF_cjk hc]
      rw [hh, hh]
    · have hg : gChar c = mEChar c := by
        unfold gChar
        rw [if_neg hc]
      rcases mapChar_cases fwDigitMap c with h1 | ⟨q, hq, h1⟩
      · rcases mapChar_cases fullToHalf c with h2 | ⟨q2, hq2, h2⟩
        · have hh : hChar c = c := by
            unfold hChar
            rw [hM, hg]
            unfold mEChar
            rw [h1, h2]
          rw [hh, hh]
        · have hv := hChar_fixed_values q2.2
            (List.mem_append.mpr (Or.inr (List.mem_map_of_mem Prod.snd hq2)))
          have hh : hChar c = q2.2 := by
            unfold hChar
            rw [hM, hg]
            unfold mEChar
            rw [h1, h2]
          rw [hh]
          unfold hChar
          rw [hv.1, hv.2]
      · have hv := hChar_fixed_values q.2
          (List.mem_append.mpr (Or.inl (List.mem_append.mpr
            (Or.inr (List.mem_map_of_mem Prod.snd hq)))))
        have hh : hChar c = q.2 := by
          unfold hChar
          rw [hM, hg]
          unfold mEChar
          rw [h1, fwd_values_fth_fixed q.2 (List.mem_map_of_mem Prod.snd hq)]
        rw [hh]
        unfold hChar
        rw [hv.1, hv.2]
  · have hv := hChar_fixed_values p.2
      (List.mem_append.mpr (Or.inl (List.mem_append.mpr
        (Or.inl (List.mem_map_of_mem Prod.snd hp)))))
    have hh : hChar c = p.2 := by
      unfold hChar
      rw [hM, hv.2]
    rw [hh]
    unfold hChar
    rw [hv.1, hv.2]

theorem collapseWs_cons (c : Char) (cs : Str) :
    collapseWs (c :: cs) =
      if isPySpace c then
        match collapseWs cs with
        | [] => [' ']
        | d :: t => if d = ' ' then d :: t else ' ' :: d :: t
      else c :: collapseWs cs := rfl

theorem okWs_cons (c : Char) (t : Str) :
    okWs (c :: t) =
      ((!isPySpace c || c == ' ') &&
        (match t with
         | [] => true
         | d :: _ => !(isPySpace c && isPySpace d)) && okWs t) := rfl

theorem mem_collapseWs_space (s : Str) :
    ∀ c ∈ collapseWs s, isPySpace c = true → c = ' ' := by
  induction s with
  | nil => intro c hc; cases hc
  | cons a as ih =>
    intro c hc hcs
    rw [collapseWs_cons] at hc
    by_cases ha : isPySpace a = true
    · rw [if_pos ha] at hc
      cases hu : collapseWs as with
      | nil =>
        rw [hu] at hc
        simpa using hc
      | cons d t =>
        rw [hu] at hc
        simp only [] at hc
        by_cases hd : d = ' '
        · rw [if_pos hd] at hc
          exact ih c (hu ▸ hc) hcs
        · rw [if_neg hd] at hc
          rcases List.mem_cons.mp hc with h1 | h1
          · exact h1
          · exact ih c (hu ▸ h1) hcs
    · rw [if_neg ha] at hc
      rcases List.mem_cons.mp hc with h1 | h1
      · rw [h1] at hcs
        exact absurd hcs ha
      · exact ih c h1 hcs

theorem mem_collapseWs (s : Str) : ∀ c ∈ collapseWs s, c = ' ' ∨ c ∈ s := by
  induction s with
  | nil => intro c hc; cases hc
  | cons a as ih =>
    intro c hc
    rw [collapseWs_cons] at hc
    by_cases ha : isPySpace a = true
    · rw [if_pos ha] at hc
      cases hu : collapseWs as with
      | nil =>
        rw [hu] at hc
        left
        simpa using hc
      | cons d t =>
        rw [hu] at hc
        simp only [] at hc
        by_cases hd : d = ' '
        · rw [if_pos hd] at hc
          rcases ih c (hu ▸ hc) with h | h
          · exact Or.inl h
          · exact Or.inr (List.mem_cons_of_mem _ h)
        · rw [if_neg hd] at hc
          rcases List.mem_cons.mp hc with h1 | h1
          · exact Or.inl h1
          · rcases ih c (hu ▸ h1) with h | h
            · exact Or.inl h
            · exact Or.inr (List.mem_cons_of_mem _ h)
    · rw [if_neg ha] at hc
      rcases List.mem_cons.mp hc with h1 | h1
      · exact Or.inr (h1 ▸ List.mem_cons_self a as)
      · rcases ih c h1 with h | h
        · exact Or.inl h
        · exact Or.inr (List.mem_cons_of_mem _ h)

theorem okWs_collapseWs (s : Str) : okWs (collapseWs s) = true := by
  induction s with
  | nil => rfl
  | cons a as ih =>
    rw [collapseWs_cons]
    by_cases ha : isPySpace a = true
    · rw [if_pos ha]
      cases hu : collapseWs as with
      | nil => rfl
      | cons d t =>
        simp only []
        by_cases hd : d = ' '
        · rw [if_pos hd, ← hu]
          exact ih
        · rw [if_neg hd]
          have hdw : isPySpace d = false := by
            rw [Bool.eq_false_iff]
            intro hdt
            exact hd (mem_collapseWs_space as d
              (hu ▸ List.mem_cons_self d t) hdt)
          rw [okWs_cons]
          simp only [Bool.and_eq_true]
          refine ⟨⟨by decide, by simp [hdw]⟩, ?_⟩
          rw [← hu]
          exact ih
    · rw [if_neg ha]
      rw [okWs_cons]
      simp only [Bool.and_eq_true]
      refine ⟨⟨by simp [ha], ?_⟩, ih⟩
      cases hu : collapseWs as with
      | nil => rfl
      | cons d t =>
        simp only []
        simp [ha]

theorem okWs_tail {c : Char} {t : Str} (h : okWs (c :: t) = true) :
    okWs t = true := by
  rw [okWs_cons] at h
  simp only [Bool.and_eq_true] at h
  exact h.2

theorem okWs_collapse_fixed : ∀ t : Str, okWs t = true → collapseWs t = t := by
  intro t
  induction t with
  | nil => intro _; rfl
  | cons c u ih =>
    intro h
    have h3 : okWs u = true := okWs_tail h
    rw [okWs_cons] at h
    simp only [Bool.and_eq_true] at h
    rw [collapseWs_cons]
    by_cases hc : isPySpace c = true
    · have hcsp : c = ' ' := by
        have := h.1.1
        simp [hc] at this
        exact this
      rw [if_pos hc, ih h3]
      cases u with
      | nil => rw [hcsp]
      | cons d t2 =>
        simp only []
        have hdw : isPySpace d = false := by
          have := h.1.2
          simp only [hc, Bool.true_and, Bool.not_eq_true'] at this
          exact this
        rw [if_neg (by intro e; rw [e] at hdw; simp [isPySpace] at hdw), hcsp]
    · rw [if_neg hc, ih h3]

theorem okWs_dropWhile (p : Char → Bool) :
    ∀ t : Str, okWs t = true → okWs (t.dropWhile p) = true := by
  intro t
  induction t with
  | nil => intro _; rfl
  | cons c u ih =>
    intro h
    rw [List.dropWhile_cons]
    by_cases hc : p c = true
    · rw [if_pos hc]
      exact ih (okWs_tail h)
    · rw [if_neg hc]
      exact h

theorem okWs_append_left : ∀ l r : Str, okWs (l ++ r) = true → okWs l = true := by
  intro l
  induction l with
  | nil => intro r _; rfl
  | cons c l2 ih =>
    intro r h
    rw [List.cons_append, okWs_cons] at h
    simp only [Bool.and_eq_true] at h
    rw [okWs_cons]
    simp only [Bool.and_eq_true]
    refine ⟨⟨h.1.1, ?_⟩, ih r h.2⟩
    cases l2 with
    | nil => rfl
    | cons d t2 =>
      have := h.1.2
      simpa using this

theorem okWs_rdropWhile (p : Char → Bool) (t : Str) (h : okWs t = true) :
    okWs (List.rdropWhile p t) = true := by
  obtain ⟨r, hr⟩ := List.rdropWhile_prefix p t
  exact okWs_append_left _ r (by rw [hr]; exact h)

theorem wsClean_idem (s : Str) : wsClean (wsClean s) = wsClean s := by
  unfold wsClean
  have hok : okWs (pyStrip (collapseWs s)) = true := by
    unfold pyStrip
    exact okWs_rdropWhile _ _ (okWs_dropWhile _ _ (okWs_collapseWs s))
  rw [okWs_collapse_fixed _ hok, pyStrip_idem]

theorem mem_dropWhile {p : Char → Bool} : ∀ {s : Str} {c : Char},
    c ∈ s.dropWhile p → c ∈ s := by
  intro s
  induction s with
  | nil => intro c hc; cases hc
  | cons a as ih =>
    intro c hc
    rw [List.dropWhile_cons] at hc
    by_cases ha : p a = true
    · rw [if_pos ha] at hc
      exact List.mem_cons_of_mem _ (ih hc)
    · rw [if_neg ha] at hc
      exact hc

theorem mem_pyStrip {s : Str} {c : Char} (hc : c ∈ pyStrip s) : c ∈ s := by
  unfold pyStrip at hc
  obtain ⟨r, hr⟩ := List.rdropWhile_prefix isPySpace (s.dropWhile isPySpace)
  exact mem_dropWhile (by rw [← hr]; exact List.mem_append.mpr (Or.inl hc))

theorem map_hChar_wsClean (t : Str) (h : ∀ c ∈ t, hChar c = c) :
    (wsClean t).map hChar = wsClean t := by
  apply map_eq_self_of_mem
  intro c hc
  rcases mem_collapseWs t c (mem_pyStrip hc) with h1 | h1
  · rw [h1]
    exact hChar_space
  · exact h c h1

/-- C1.  The character normalizer `_normalize_characters` is idempotent:
running the full pipeline (global `CHAR_MAPPING` table, script-scoped
punctuation passes, whitespace collapsing and trimming) a second time
changes nothing. -/
theorem normalize_idempotent (s : Str) :
    normalizeCharacters (normalizeCharacters s) = normalizeCharacters s := by
  rw [normalizeCharacters_eq s, normalizeCharacters_eq (wsClean (s.map hChar)),
    map_hChar_wsClean (s.map hChar) (by
      intro c hc
      obtain ⟨a, _, rfl⟩ := List.mem_map.mp hc
      exact hChar_idem a)]
  exact wsClean_idem (s.map hChar)

/-! ### Concrete scenario theorems (claims C3, C7, C8, C9) -/

/-- C3 fails on the code: for the input line `【1】张三. 论文标题` the
stripper runs before normalization and its pattern does not match the
full-width brackets, so `was_stripped` is `false`, not `true` as
claimed. -/
theorem scenario_b_counterexample :
    (processText (("【1】张三. 论文标题").toList)).2.2 = false := by rfl

/-- C3 (amended): on the line `【1】张三. 论文标题` the numbering stripper
runs before character normalization, so the full-width `【1】` is never
recognised and nothing is stripped (`was_stripped = false`); the
normalizer then maps `【`/`】` to `[`/`]` and, because the half-width
period sits in a non-CJK run of the two-group split, the period stays
half-width: the processed entry is `[1]张三. 论文标题` and the plain
output line is `1. [1]张三. 论文标题`. -/
theorem scenario_b_actual :
    normalizeCharacters (("【1】张三. 论文标题").toList) =
        ("[1]张三. 论文标题").toList ∧
      (processText (("【1】张三. 论文标题").toList)).2.1 =
        ("1. [1]张三. 论文标题").toList ∧
      (processText (("【1】张三. 论文标题").toList)).2.2 = false := by
  exact ⟨rfl, rfl, rfl⟩

/-- C7 is right about the intent and the code breaks it: `CHAR_MAPPING`'s
digits row contains the key `'四'` — the CJK ideograph U+56DB, not the
full-width digit `４` — so the global first pass rewrites a CJK ideograph
and `normalize` does not leave every CJK ideograph unchanged:
`normalize("四") = "4"`. -/
theorem char_mapping_hits_cjk_ideograph :
    isCJK '四' = true ∧
      (CHAR_MAPPING.find? (fun p => p.1 = '四')).isSome = true ∧
      normalizeCharacters (("四").toList) = ("4").toList := by
  exact ⟨by decide, by decide, rfl⟩

/-- C8.  Markup round trip: extracting entries from the styled markup
document generated for `["A. B.", "C. D."]` returns exactly
`["A. B.", "C. D."]`, in order. -/
theorem markup_round_trip :
    extractReferencesFromHtml (renderStyled [("A. B.").toList, ("C. D.").toList]) =
      [("A. B.").toList, ("C. D.").toList] := by rfl

/-- C9.  Empty input is not an error: on whitespace-only raw text
`process_text` returns empty styled output, empty plain output and a
`false` flag, and rendering a zero-entry list gives the empty string in
both representations. -/
theorem empty_input_neutral (raw : Str) (h : ∀ c ∈ raw, isPySpace c = true) :
    processText raw = ([], [], false) ∧
      generateHtmlList [] = [] ∧ generatePlainTextList [] = [] := by
  refine ⟨?_, rfl, rfl⟩
  have hp : pyStrip raw = [] := by
    unfold pyStrip
    rw [List.dropWhile_eq_nil_iff.mpr h]
    rfl
  unfold processText
  rw [if_pos (by simp [hp])]

/-- Witness for C9 at a concrete whitespace-only input. -/
theorem empty_input_neutral_witness :
    processText ((" \t ").toList) = ([], [], false) ∧
      generateHtmlList [] = [] ∧ generatePlainTextList [] = [] :=
  empty_input_neutral ((" \t ").toList) (by decide)
